import Mathlib

/-!
Verification of the cosense-archiver core: the line/markup parser
(src/parser/line-parser.ts) and the link graph engine
(src/analyzer/link-analyzer.ts), shallowly embedded in Lean.
Strings are modelled as lists of characters; the JavaScript regular
expressions of the source are translated into explicit matching
functions with the same semantics (greedy matching with the limited
backtracking the concrete patterns can perform).
-/

namespace Cosense

/-- Strings of the embedded program, as character lists. -/
abbrev Str := List Char

/-- The character class of the JavaScript regex escape backslash-s
(whitespace, including full-width and BOM characters). -/
def isJsSpace (c : Char) : Bool :=
  c == ' ' || c == '\t' || c == '\n' || c == '\r' || c == '\x0b' || c == '\x0c' ||
  c == Char.ofNat 0xa0 || c == Char.ofNat 0x1680 ||
  ((Char.ofNat 0x2000 ≤ c) && (c ≤ Char.ofNat 0x200a)) ||
  c == Char.ofNat 0x2028 || c == Char.ofNat 0x2029 ||
  c == Char.ofNat 0x202f || c == Char.ofNat 0x205f ||
  c == Char.ofNat 0x3000 || c == Char.ofNat 0xfeff

/-- JavaScript line terminators: the dot of a regex matches any character
except these. -/
def isLineTerm (c : Char) : Bool :=
  c == '\n' || c == '\r' || c == Char.ofNat 0x2028 || c == Char.ofNat 0x2029

/-- The character class of the JavaScript regex escape backslash-w. -/
def isWordChar (c : Char) : Bool :=
  ('a' ≤ c && c ≤ 'z') || ('A' ≤ c && c ≤ 'Z') || ('0' ≤ c && c ≤ '9') || c == '_'

/-- The backquote character delimiting inline code. -/
def backquote : Char := Char.ofNat 96

/-- Inline node produced by the markup parser (line-types.ts).
Every constructor carries its raw source span as first field. -/
inductive ParsedNode where
  | text (raw : Str) (text : Str)
  | internalLink (raw : Str) (title : Str)
  | externalLink (raw : Str) (url : Str) (title : Str)
  | externalProjectLink (raw : Str) (project : Str) (page : Str)
  | image (raw : Str) (url : Str)
  | icon (raw : Str) (user : Str)
  | hashtag (raw : Str) (tag : Str)
  | bold (raw : Str) (level : Nat) (children : List ParsedNode)
  | italic (raw : Str) (children : List ParsedNode)
  | strikethrough (raw : Str) (children : List ParsedNode)
  | underline (raw : Str) (children : List ParsedNode)
  | code (raw : Str) (codeText : Str)
  | math (raw : Str) (formula : Str)

/-- The raw source span of a node. -/
def ParsedNode.rawOf : ParsedNode → Str
  | .text r _ => r
  | .internalLink r _ => r
  | .externalLink r _ _ => r
  | .externalProjectLink r _ _ => r
  | .image r _ => r
  | .icon r _ => r
  | .hashtag r _ => r
  | .bold r _ _ => r
  | .italic r _ => r
  | .strikethrough r _ => r
  | .underline r _ => r
  | .code r _ => r
  | .math r _ => r

/-- Result of parsing one line (line-types.ts ParsedLine). -/
structure ParsedLine where
  indent : Nat
  nodes : List ParsedNode
  isCodeBlock : Bool
  codeBlockLang : Str
  isCodeBlockContent : Bool
  isQuote : Bool

/-- measureIndent: count the leading run of spaces and tabs, return the
count and the remaining content. -/
def measureIndent (line : Str) : Nat × Str :=
  let ind := line.takeWhile (fun c => c == ' ' || c == '\t')
  (ind.length, line.drop ind.length)

/-- parseQuote: a line whose content starts with a single greater-than
sign is a quote; one following space is stripped. -/
def parseQuote (content : Str) : Bool × Str :=
  match content with
  | '>' :: t =>
    if t.head? = some '>' then (false, content)
    else
      match t with
      | ' ' :: r => (true, r)
      | _ => (true, t)
  | _ => (false, content)

/-- The trailing-extension language tag of a code-block file name:
the suffix after the final dot when that suffix is a nonempty run of
word characters (regex dot-then-word-chars anchored at the end). -/
def extLang (filename : Str) : Str :=
  let w := filename.reverse.takeWhile isWordChar
  if w ≠ [] ∧ (filename.reverse.drop w.length).head? = some '.' then w.reverse else []

/-- isCodeBlockStart: content matching code-colon-token (token nonempty,
no whitespace) opens a fenced code block; returns the language tag. -/
def isCodeBlockStart (content : Str) : Bool × Str :=
  if content.take 5 = ("code:".toList) ∧ content.drop 5 ≠ [] ∧
      (content.drop 5).all (fun c => ¬ isJsSpace c) then
    (true, extLang (content.drop 5))
  else (false, [])

/-- Double-bracket bold matcher: two opening brackets, a nonempty run of
non-closing-bracket characters, two closing brackets. Returns the
interior and the rest of the input. -/
def matchDoubleBracket (cs : Str) : Option (Str × Str) :=
  match cs with
  | '[' :: '[' :: t =>
    if t.takeWhile (fun c => c ≠ ']') ≠ [] ∧
        (t.drop (t.takeWhile (fun c => c ≠ ']')).length).take 2 = [']', ']'] then
      some (t.takeWhile (fun c => c ≠ ']'),
        t.drop ((t.takeWhile (fun c => c ≠ ']')).length + 2))
    else none
  | _ => none

/-- Single-bracket matcher: an opening bracket, a nonempty run of
non-closing-bracket characters, a closing bracket. -/
def matchSingleBracket (cs : Str) : Option (Str × Str) :=
  match cs with
  | '[' :: t =>
    if t.takeWhile (fun c => c ≠ ']') ≠ [] ∧
        (t.drop (t.takeWhile (fun c => c ≠ ']')).length).take 1 = [']'] then
      some (t.takeWhile (fun c => c ≠ ']'),
        t.drop ((t.takeWhile (fun c => c ≠ ']')).length + 1))
    else none
  | _ => none

/-- Inline-code matcher: backquote, nonempty non-backquote run, backquote. -/
def matchInlineCode (cs : Str) : Option (Str × Str) :=
  match cs with
  | c :: t =>
    if c = backquote then
      if t.takeWhile (fun d => d ≠ backquote) ≠ [] ∧
          (t.drop (t.takeWhile (fun d => d ≠ backquote)).length).take 1 =
            [backquote] then
        some (t.takeWhile (fun d => d ≠ backquote),
          t.drop ((t.takeWhile (fun d => d ≠ backquote)).length + 1))
      else none
    else none
  | [] => none

/-- A character allowed inside a hashtag token: not whitespace and not a
bracket or hash. -/
def isTagChar (c : Char) : Bool :=
  ¬ isJsSpace c && c ≠ '[' && c ≠ ']' && c ≠ '#'

/-- Hashtag matcher: a hash followed by the maximal nonempty run of tag
characters. -/
def matchHashtag (cs : Str) : Option (Str × Str) :=
  match cs with
  | '#' :: t =>
    if t.takeWhile isTagChar ≠ [] then
      some (t.takeWhile isTagChar, t.drop (t.takeWhile isTagChar).length)
    else none
  | _ => none

/-- External-project-link pattern: a slash, a nonempty run of non-slash
characters (the project), a slash, and the remainder (the page, which the
regex dot-star requires to be free of line terminators). -/
def extProjMatch (content : Str) : Option (Str × Str) :=
  match content with
  | '/' :: t =>
    let proj := t.takeWhile (fun c => c ≠ '/')
    if proj ≠ [] ∧ proj.length < t.length then
      let page := t.drop (proj.length + 1)
      if page.all (fun c => ¬ isLineTerm c) then some (proj, page) else none
    else none
  | _ => none

/-- Icon pattern: a nonempty run of characters free of whitespace and
dots, followed by the literal dot-icon suffix at the end. -/
def iconMatch (content : Str) : Option Str :=
  let name := content.take (content.length - 5)
  if content.drop (content.length - 5) = (".icon".toList) ∧ name ≠ [] ∧
      name.all (fun c => ¬ isJsSpace c ∧ c ≠ '.') then
    some name
  else none

/-- Semantics of the regex fragment "one or more whitespace characters
followed by one or more dot-matched characters, anchored at the end":
with w the maximal whitespace prefix, the remainder after it is taken
when nonempty and free of line terminators; when the whole input is
whitespace, backtracking gives back its last character provided that
character is not a line terminator. Returns the captured remainder. -/
def wsThenRest (t : Str) : Option Str :=
  let w := (t.takeWhile isJsSpace).length
  if w = 0 then none
  else if w < t.length then
    let rest := t.drop w
    if rest.all (fun c => ¬ isLineTerm c) then some rest else none
  else
    match t.getLast? with
    | some c => if 2 ≤ w ∧ ¬ isLineTerm c then some [c] else none
    | none => none

/-- Bold pattern: a nonempty run of asterisks, whitespace, remainder.
Returns the asterisk count (the level) and the remainder. -/
def boldSplit (content : Str) : Option (Nat × Str) :=
  let stars := content.takeWhile (fun c => c = '*')
  if stars = [] then none
  else
    match wsThenRest (content.drop stars.length) with
    | some rest => some (stars.length, rest)
    | none => none

/-- Decoration pattern for italic, strikethrough and underline: the
marker character, whitespace, remainder. -/
def decoSplit (marker : Char) (content : Str) : Option Str :=
  match content with
  | c :: t => if c = marker then wsThenRest t else none
  | [] => none

/-- Case-insensitive character comparison via Char.toLower. -/
def charEqCI (a b : Char) : Bool := a.toLower == b.toLower

/-- Case-insensitive list suffix test. -/
def endsWithCI (s suffix : Str) : Bool :=
  suffix.length ≤ s.length &&
    List.all₂ charEqCI (s.drop (s.length - suffix.length)) suffix

/-- The image file-extension allowlist. -/
def imageExts : List Str :=
  [("png".toList), ("jpg".toList), ("jpeg".toList), ("gif".toList),
   ("webp".toList), ("svg".toList), ("bmp".toList)]

/-- IMAGE_EXTENSIONS test: the string ends with a dot and one of the
allowed extensions, case-insensitively. -/
def imageExtTest (s : Str) : Bool :=
  imageExts.any (fun ext => endsWithCI s ('.' :: ext))

/-- GYAZO_PATTERN test: an http or https scheme, an optional i-dot
subdomain, then the gyazo.com host and a slash. -/
def gyazoTest (s : Str) : Bool :=
  let afterScheme : Option Str :=
    if s.take 8 = ("https://".toList) then some (s.drop 8)
    else if s.take 7 = ("http://".toList) then some (s.drop 7)
    else none
  match afterScheme with
  | some r =>
    r.take 10 = ("gyazo.com/".toList) || r.take 12 = ("i.gyazo.com/".toList)
  | none => false

/-- A character allowed in the URL-body character class: not whitespace
and not a closing bracket. -/
def isUrlChar (c : Char) : Bool := ¬ isJsSpace c && c ≠ ']'

/-- URL_PATTERN match at the start of the string: a scheme followed by a
nonempty maximal run of URL-body characters. Returns the matched URL. -/
def urlAt (s : Str) : Option Str :=
  let tryScheme (schemeLen : Nat) : Option Str :=
    let run := (s.drop schemeLen).takeWhile isUrlChar
    if run ≠ [] then some (s.take schemeLen ++ run) else none
  if s.take 8 = ("https://".toList) then tryScheme 8
  else if s.take 7 = ("http://".toList) then tryScheme 7
  else none

/-- URL_PATTERN_GLOBAL search: the first position at which the URL
pattern matches, scanning left to right. -/
def findUrl : Str → Option Str
  | [] => none
  | c :: t =>
    match urlAt (c :: t) with
    | some u => some u
    | none => findUrl t

/-- LOCAL_IMAGE_PATH test: the literal local-assets prefix, a nonempty
run free of whitespace and closing brackets, then a dot and an allowed
image extension at the end (case-insensitive). -/
def localImagePathTest (s : Str) : Bool :=
  let pre := ("../assets/images/".toList)
  if s.take pre.length = pre then
    let r := s.drop pre.length
    imageExts.any (fun ext =>
      endsWithCI r ('.' :: ext) &&
      (let mid := r.take (r.length - (ext.length + 1))
       mid ≠ [] && mid.all isUrlChar))
  else false

/-- JavaScript String.split on runs of whitespace: separators are
maximal whitespace runs; a leading or trailing separator contributes an
empty piece. -/
def splitWs (s : Str) : List Str :=
  go s []
where
  go : Str → Str → List Str
    | [], cur => [cur.reverse]
    | c :: t, cur =>
      if isJsSpace c then cur.reverse :: go (t.dropWhile isJsSpace) []
      else go t (c :: cur)
  termination_by s _ => s.length
  decreasing_by
    all_goals simp only [List.length_cons]
    · exact Nat.lt_succ_of_le (List.dropWhile_suffix _).length_le
    · exact Nat.lt_succ_self _

/-- Array.join with a single-space separator. -/
def joinSpace (parts : List Str) : Str := List.intercalate [' '] parts

/-- The raw span of a single-bracket node: the interior re-wrapped in
brackets. -/
def brRaw (content : Str) : Str := '[' :: (content ++ [']'])

/-- parseBracket: dispatch on the interior of a single-bracket form.
The source function recursively parses decoration interiors; here the
recursive inline parse is passed in as rec (the caller supplies the
fuel-indexed inline parser), keeping the recursion structural. Every
other branch is a direct translation of the source's cascade. The
source's return type also allows null, but every branch returns a node. -/
def parseBracket (rec : Str → List ParsedNode) (content : Str) : ParsedNode :=
  match extProjMatch content with
  | some (proj, page) => .externalProjectLink (brRaw content) proj page
  | none =>
  match iconMatch content with
  | some user => .icon (brRaw content) user
  | none =>
  if content.take 2 = ['$', ' '] then .math (brRaw content) (content.drop 2)
  else
  match boldSplit content with
  | some (lvl, boldContent) =>
    if gyazoTest boldContent || imageExtTest boldContent ||
        localImagePathTest boldContent then
      .image (brRaw content) boldContent
    else
      .bold (brRaw content) lvl (rec boldContent)
  | none =>
  match decoSplit '/' content with
  | some r => .italic (brRaw content) (rec r)
  | none =>
  match decoSplit '-' content with
  | some r => .strikethrough (brRaw content) (rec r)
  | none =>
  match decoSplit '_' content with
  | some r => .underline (brRaw content) (rec r)
  | none =>
  if localImagePathTest content then .image (brRaw content) content
  else
  match findUrl content with
  | some url =>
    if gyazoTest url || imageExtTest url then .image (brRaw content) url
    else
      let parts := splitWs content
      if parts.length = 1 then .externalLink (brRaw content) url url
      else if (urlAt (parts.headD [])).isSome then
        .externalLink (brRaw content) (parts.headD []) (joinSpace (parts.drop 1))
      else
        let urlPart := (parts.find? (fun p => (findUrl p).isSome)).getD []
        let titleParts := parts.filter (fun p => (findUrl p).isNone)
        .externalLink (brRaw content) urlPart (joinSpace titleParts)
  | none => .internalLink (brRaw content) content

/-- The hashtag position check of parseInlineContent: valid at the very
start, after a buffered space, tab or full-width closing punctuation, or
directly after an emitted node with an empty buffer. -/
def isValidPosition (nodes : List ParsedNode) (textBuffer : Str) : Bool :=
  (nodes.isEmpty && textBuffer.isEmpty) ||
  decide (textBuffer.getLast? = some ' ') ||
  decide (textBuffer.getLast? = some '\t') ||
  decide (textBuffer.getLast? = some '」') ||
  decide (textBuffer.getLast? = some '）') ||
  decide (textBuffer.getLast? = some '】') ||
  (textBuffer.isEmpty && !nodes.isEmpty)

/-- flushTextBuffer: append a text node for a nonempty buffer. -/
def flushBuf (buf : Str) (nodes : List ParsedNode) : List ParsedNode :=
  if buf = [] then nodes else nodes ++ [.text buf buf]

/-- The buffer flush preceding a hashtag: a buffer ending in a space or
tab is flushed as two text nodes, the body and the single trailing
whitespace character. -/
def hashtagFlush (buf : Str) (nodes : List ParsedNode) : List ParsedNode :=
  match buf.getLast? with
  | some c =>
    if c = ' ' ∨ c = '\t' then flushBuf [c] (flushBuf (buf.dropLast) nodes)
    else flushBuf buf nodes
  | none => flushBuf buf nodes

/-- parseInlineContent: the left-to-right scanning loop of the source,
with the loop expressed by a fuel parameter that bounds the number of
iterations (each iteration of the source loop consumes at least one
character, so any fuel exceeding the input length computes the loop's
result; this is proved below). nodes and textBuffer are the mutable
accumulators of the source. On fuel exhaustion the remaining input is
flushed verbatim, a case sufficient fuel never reaches. -/
def parseInlineContent : Nat → Str → List ParsedNode → Str → List ParsedNode
  | 0, cs, nodes, buf =>
    if cs = [] then flushBuf buf nodes
    else flushBuf buf nodes ++ [.text cs cs]
  | fuel + 1, cs, nodes, buf =>
    match cs with
    | [] => flushBuf buf nodes
    | c :: t =>
      match matchDoubleBracket (c :: t) with
      | some (interior, rest) =>
        parseInlineContent fuel rest
          (flushBuf buf nodes ++
            [.bold ('[' :: '[' :: (interior ++ [']', ']'])) 1
              (parseInlineContent fuel interior [] [])]) []
      | none =>
      match matchSingleBracket (c :: t) with
      | some (interior, rest) =>
        parseInlineContent fuel rest
          (flushBuf buf nodes ++
            [parseBracket (fun sub => parseInlineContent fuel sub [] []) interior]) []
      | none =>
      match matchInlineCode (c :: t) with
      | some (inner, rest) =>
        parseInlineContent fuel rest
          (flushBuf buf nodes ++
            [.code (backquote :: (inner ++ [backquote])) inner]) []
      | none =>
      if c = '#' ∧ isValidPosition nodes buf then
        match matchHashtag (c :: t) with
        | some (tag, rest) =>
          parseInlineContent fuel rest
            (hashtagFlush buf nodes ++ [.hashtag ('#' :: tag) tag]) []
        | none => parseInlineContent fuel t nodes (buf ++ [c])
      else parseInlineContent fuel t nodes (buf ++ [c])

/-- The inline parser at its canonical fuel (one more than the input
length, which suffices). -/
def parseInlineContentTop (s : Str) : List ParsedNode :=
  parseInlineContent (s.length + 1) s [] []

/-- parseLine with an explicit fuel bound for the inline scanning loops. -/
def parseLineFuel (fuel : Nat) (line : Str) (inCodeBlock : Bool) : ParsedLine :=
  let mi := measureIndent line
  if inCodeBlock ∧ 0 < mi.1 then
    { indent := mi.1, nodes := [.text mi.2 mi.2], isCodeBlock := false,
      codeBlockLang := [], isCodeBlockContent := true, isQuote := false }
  else
    let cb := isCodeBlockStart mi.2
    if cb.1 then
      { indent := mi.1, nodes := [.text mi.2 mi.2], isCodeBlock := true,
        codeBlockLang := cb.2, isCodeBlockContent := false, isQuote := false }
    else
      let q := parseQuote mi.2
      if q.1 then
        { indent := mi.1,
          nodes := if q.2 ≠ [] then parseInlineContent fuel q.2 [] [] else [],
          isCodeBlock := false, codeBlockLang := [],
          isCodeBlockContent := false, isQuote := true }
      else
        { indent := mi.1, nodes := parseInlineContent fuel mi.2 [] [],
          isCodeBlock := false, codeBlockLang := [],
          isCodeBlockContent := false, isQuote := false }

/-- parseLine: code-block-content short-circuit, code-block start,
quote, then ordinary inline parsing, exactly as in the source. -/
def parseLine (line : Str) (inCodeBlock : Bool) : ParsedLine :=
  parseLineFuel (line.length + 1) line inCodeBlock

/-- One step of parseLines: close an open code block before parsing a
non-blank line whose indent does not exceed the recorded block indent,
parse with the updated flag, then open a block if the parsed line starts
one. State: inside-code-block flag, recorded block indent, results. -/
def parseLinesStep (st : Bool × Nat × List ParsedLine) (line : Str) :
    Bool × Nat × List ParsedLine :=
  let mi := measureIndent line
  let inCB :=
    if st.1 ∧ mi.1 ≤ st.2.1 ∧ ¬ line.all isJsSpace then false else st.1
  let parsed := parseLine line inCB
  let inCB' := if parsed.isCodeBlock then true else inCB
  let ind' := if parsed.isCodeBlock then mi.1 else st.2.1
  (inCB', ind', st.2.2 ++ [parsed])

/-- parseLines: the single forward pass threading code-block state. -/
def parseLines (lines : List Str) : List ParsedLine :=
  (lines.foldl parseLinesStep (false, 0, [])).2.2

/-! ## Link analyzer (src/analyzer/link-analyzer.ts) -/

/-- A page line: a plain string or a telomere object carrying the text. -/
inductive CosenseLine where
  | str (s : Str)
  | telomere (text : Str) (created : Int) (updated : Int)

/-- getLineText: the text of a line in either representation. -/
def getLineText : CosenseLine → Str
  | .str s => s
  | .telomere t _ _ => t

/-- A page: title, timestamps and lines (types.ts CosensePage). -/
structure CosensePage where
  title : Str
  created : Int
  updated : Int
  lines : List CosenseLine

/-- Insertion-ordered map with string keys, modelling a JavaScript Map:
lookup finds the first matching key; set replaces in place or appends. -/
abbrev AList (α : Type) := List (Str × α)

/-- Map.get, as an option: the first entry with the given key. -/
def alGet {α : Type} : AList α → Str → Option α
  | [], _ => none
  | e :: t, k => if e.1 = k then some e.2 else alGet t k

/-- Map.get with a default for a missing key. -/
def alGetD {α : Type} (m : AList α) (k : Str) (d : α) : α :=
  (alGet m k).getD d

/-- Map.set: replace the value at an existing key, else append. -/
def alSet {α : Type} : AList α → Str → α → AList α
  | [], k, v => [(k, v)]
  | e :: t, k, v => if e.1 = k then (k, v) :: t else e :: alSet t k v

/-- Set.add on an insertion-ordered string set. -/
def insertSet (s : List Str) (x : Str) : List Str :=
  if x ∈ s then s else s ++ [x]

/-- new Set(iterable): deduplicate preserving first occurrences. -/
def setOf (l : List Str) : List Str := l.foldl insertSet []

/-- The link graph (link-analyzer.ts LinkGraph). -/
structure LinkGraph where
  forwardLinks : AList (List Str)
  backLinks : AList (List Str)
  linkContexts : AList (AList (List Str))
  existingPages : List Str

/-- The outgoing link target of a top-level node considered by
extractLinks: an internal link's title or a hashtag's tag. -/
def topLinkTarget : ParsedNode → Option Str
  | .internalLink _ title => some title
  | .hashtag _ tag => some tag
  | _ => none

/-- The per-node step of extractLinks: record the raw source line as a
context for the node's link target when that target is truthy
(a nonempty string). -/
def addNodeLink (orig : Str) (links : AList (List Str)) (node : ParsedNode) :
    AList (List Str) :=
  match topLinkTarget node with
  | some target =>
    if target ≠ [] then alSet links target (alGetD links target [] ++ [orig])
    else links
  | none => links

/-- The per-line step of extractLinks: fold over the top-level nodes of
the parsed line, paired with its raw source line. -/
def addLineLinks (links : AList (List Str)) (pr : ParsedLine × Str) :
    AList (List Str) :=
  pr.1.nodes.foldl (addNodeLink pr.2) links

/-- extractLinks: parse the page's lines and record, for every
internal-link or hashtag node in a line's top-level node list with a
truthy (nonempty) target, the raw source line as context for that
target. -/
def extractLinks (page : CosensePage) : AList (List Str) :=
  let lines := page.lines.map getLineText
  let parsedLines := parseLines lines
  (parsedLines.zip lines).foldl addLineLinks []

/-- The empty link graph. -/
def emptyGraph : LinkGraph :=
  { forwardLinks := [], backLinks := [], linkContexts := [], existingPages := [] }

/-- The seeding pass of buildLinkGraph: register every page with empty
adjacency sets and context map. -/
def seedPage (g : LinkGraph) (page : CosensePage) : LinkGraph :=
  { forwardLinks := alSet g.forwardLinks page.title []
    backLinks := alSet g.backLinks page.title []
    linkContexts := alSet g.linkContexts page.title []
    existingPages := insertSet g.existingPages page.title }

/-- One (target, contexts) entry of the linking pass: add the target to
the page's forward set, the page to the target's back set (creating it
if missing), and append the contexts. -/
def addLinkEntry (title : Str) (g : LinkGraph) (entry : Str × List Str) :
    LinkGraph :=
  { forwardLinks :=
      alSet g.forwardLinks title (insertSet (alGetD g.forwardLinks title []) entry.1)
    backLinks :=
      alSet g.backLinks entry.1 (insertSet (alGetD g.backLinks entry.1 []) title)
    linkContexts :=
      alSet g.linkContexts title
        (let pc := alGetD g.linkContexts title []
         alSet pc entry.1 (alGetD pc entry.1 [] ++ entry.2))
    existingPages := g.existingPages }

/-- The linking pass of buildLinkGraph for one page. -/
def linkPage (g : LinkGraph) (page : CosensePage) : LinkGraph :=
  (extractLinks page).foldl (addLinkEntry page.title) g

/-- buildLinkGraph: seed every page, then record every extracted link. -/
def buildLinkGraph (pages : List CosensePage) : LinkGraph :=
  pages.foldl linkPage (pages.foldl seedPage emptyGraph)

/-- get1HopLinks: outgoing and incoming neighbor lists. -/
def get1HopLinks (graph : LinkGraph) (pageTitle : Str) : List Str × List Str :=
  (alGetD graph.forwardLinks pageTitle [], alGetD graph.backLinks pageTitle [])

/-- The inner insertion of get2HopLinks: add every candidate not in the
one-hop exclusion set. -/
def addTwoHopCandidates (oneHopSet : List Str) (acc : List Str)
    (cands : List Str) : List Str :=
  cands.foldl (fun a x => if x ∈ oneHopSet then a else insertSet a x) acc

/-- The per-neighbor step of get2HopLinks: both the forward and the back
neighbors of a one-hop page are candidates. -/
def twoHopStep (graph : LinkGraph) (oneHopSet : List Str) (acc : List Str)
    (p : Str) : List Str :=
  let acc1 := addTwoHopCandidates oneHopSet acc (alGetD graph.forwardLinks p [])
  addTwoHopCandidates oneHopSet acc1 (alGetD graph.backLinks p [])

/-- get2HopLinks: pages one further edge (in either direction) from a
one-hop neighbor (in either direction), excluding the page itself and
all one-hop neighbors. -/
def get2HopLinks (graph : LinkGraph) (pageTitle : Str) : List Str :=
  let oneHop := get1HopLinks graph pageTitle
  let oneHopSet := setOf (oneHop.1 ++ oneHop.2 ++ [pageTitle])
  let s1 := oneHop.1.foldl (twoHopStep graph oneHopSet) []
  oneHop.2.foldl (twoHopStep graph oneHopSet) s1

/-! ## Derived notions used in the statements -/

/-- Shorthand turning a Lean string literal into an embedded string. -/
def strL (s : String) : Str := s.toList

/-- The concatenation of the raw spans of a node list. -/
def joinRaws (ns : List ParsedNode) : Str := (ns.map ParsedNode.rawOf).flatten

/-- Whether a node is a hashtag node. -/
def isHashtagNode : ParsedNode → Bool
  | .hashtag _ _ => true
  | _ => false

/-- Whether a node is a bold node. -/
def isBoldNode : ParsedNode → Bool
  | .bold _ _ _ => true
  | _ => false

/-- Backlink symmetry of a graph: y is a back-neighbor of x exactly when
x is a forward-neighbor of y. -/
def SymmGraph (g : LinkGraph) : Prop :=
  ∀ x y, y ∈ alGetD g.backLinks x [] ↔ x ∈ alGetD g.forwardLinks y []

/-- All adjacency sets of a graph are empty (the state after seeding). -/
def AllNilGraph (g : LinkGraph) : Prop :=
  (∀ k, alGetD g.forwardLinks k [] = []) ∧ (∀ k, alGetD g.backLinks k [] = [])

/-- The hashtag boundary rule as the specification words it after
amendment: a hash opens a hashtag at the very start of the inline text,
directly after a just-emitted node when no text is pending, or when the
pending text ends in a space, a tab, or one of the three full-width
closing punctuation characters recognized by the source. -/
def specHashtagBoundary (nodes : List ParsedNode) (textBuffer : Str) : Bool :=
  match textBuffer.getLast?, nodes with
  | none, [] => true
  | none, _ :: _ => true
  | some c, _ => decide (c ∈ [' ', '\t', '」', '）', '】'])

/-- A page built from plain string lines, for the concrete fixtures. -/
def mkPage (t : String) (ls : List String) : CosensePage :=
  ⟨t.toList, 0, 0, ls.map (fun s => .str s.toList)⟩

/-- The four-page chain A links B links C links D of the two-hop fixture. -/
def chainPages : List CosensePage :=
  [mkPage "A" ["[B]"], mkPage "B" ["[C]"], mkPage "C" ["[D]"], mkPage "D" []]

/-- A page whose only line nests a hashtag inside a bold decoration. -/
def nestedTagPage : CosensePage := mkPage "P" ["[* a #t]"]

/-! ## Generic helper lemmas -/

lemma take_takeWhile_length (p : Char → Bool) (t : Str) :
    t.take (t.takeWhile p).length = t.takeWhile p :=
  (List.prefix_iff_eq_take.1 (List.takeWhile_prefix p)).symm

lemma takeWhile_decomp (p : Char → Bool) (t : Str) :
    t = t.takeWhile p ++ t.drop (t.takeWhile p).length := by
  conv_lhs => rw [← List.take_append_drop (t.takeWhile p).length t]
  rw [take_takeWhile_length]

lemma foldl_inv {σ α : Type} (Inv : σ → Prop) (f : σ → α → σ)
    (hstep : ∀ s a, Inv s → Inv (f s a)) :
    ∀ (l : List α) (s : σ), Inv s → Inv (l.foldl f s) := by
  intro l
  induction l with
  | nil => intro s h; exact h
  | cons a t ih => intro s h; exact ih (f s a) (hstep s a h)

lemma mem_insertSet {s : List Str} {x y : Str} :
    y ∈ insertSet s x ↔ y ∈ s ∨ y = x := by
  unfold insertSet
  by_cases h : x ∈ s
  · simp only [if_pos h]
    constructor
    · exact Or.inl
    · rintro (hy | rfl)
      · exact hy
      · exact h
  · simp [if_neg h]

lemma nodup_insertSet {s : List Str} {x : Str} (h : s.Nodup) :
    (insertSet s x).Nodup := by
  unfold insertSet
  by_cases hx : x ∈ s
  · simpa [if_pos hx]
  · simpa [if_neg hx, List.nodup_append, h]

lemma mem_foldl_insertSet {x : Str} :
    ∀ (l : List Str) (s : List Str),
      x ∈ l.foldl insertSet s ↔ x ∈ s ∨ x ∈ l := by
  intro l
  induction l with
  | nil => simp
  | cons a t ih =>
    intro s
    simp only [List.foldl_cons, ih, mem_insertSet, List.mem_cons]
    tauto

lemma mem_setOf {x : Str} {l : List Str} : x ∈ setOf l ↔ x ∈ l := by
  unfold setOf
  simp [mem_foldl_insertSet]

lemma alGet_alSet {α : Type} (m : AList α) (k : Str) (v : α) (k' : Str) :
    alGet (alSet m k v) k' = if k' = k then some v else alGet m k' := by
  induction m with
  | nil =>
    by_cases h : k' = k
    · subst h; simp [alSet, alGet]
    · have h' : ¬ k = k' := fun hh => h hh.symm
      simp [alSet, alGet, h, h']
  | cons e t ih =>
    by_cases hek : e.1 = k
    · by_cases h : k' = k
      · subst h
        simp [alSet, if_pos hek, alGet]
      · have h' : ¬ k = k' := fun hh => h hh.symm
        have h'' : ¬ e.1 = k' := fun hh => h' (hek ▸ hh)
        simp [alSet, if_pos hek, alGet, h, h', h'']
    · simp only [alSet, if_neg hek]
      by_cases h : e.1 = k'
      · have hk : ¬ k' = k := fun hh => hek (h.trans hh)
        simp [alGet, h, hk]
      · simp [alGet, h, ih]

lemma alGetD_alSet {α : Type} (m : AList α) (k : Str) (v : α) (k' : Str) (d : α) :
    alGetD (alSet m k v) k' d = if k' = k then v else alGetD m k' d := by
  unfold alGetD
  rw [alGet_alSet]
  by_cases h : k' = k <;> simp [h]

lemma alGet_isSome_alSet {α : Type} (m : AList α) (k : Str) (v : α) (k' : Str) :
    (alGet (alSet m k v) k').isSome = true ↔
      k' = k ∨ (alGet m k').isSome = true := by
  rw [alGet_alSet]
  by_cases h : k' = k <;> simp [h]

lemma alGet_isSome_iff_mem_keys {α : Type} (m : AList α) (k : Str) :
    (alGet m k).isSome = true ↔ k ∈ m.map Prod.fst := by
  induction m with
  | nil => simp [alGet]
  | cons e t ih =>
    simp only [List.map_cons, List.mem_cons]
    rw [show alGet (e :: t) k = if e.1 = k then some e.2 else alGet t k from rfl]
    by_cases h : e.1 = k
    · rw [if_pos h]
      exact ⟨fun _ => Or.inl h.symm, fun _ => rfl⟩
    · rw [if_neg h, ih]
      have h' : ¬ k = e.1 := fun hh => h hh.symm
      exact ⟨fun hm => Or.inr hm, fun hm => hm.resolve_left h'⟩

/-! ## Link graph lemmas -/

lemma allNil_emptyGraph : AllNilGraph emptyGraph :=
  ⟨fun _ => rfl, fun _ => rfl⟩

lemma allNil_seedPage (g : LinkGraph) (p : CosensePage) (h : AllNilGraph g) :
    AllNilGraph (seedPage g p) := by
  constructor
  · intro k
    rw [seedPage, alGetD_alSet]
    by_cases hk : k = p.title <;> simp [hk, h.1 k]
  · intro k
    rw [seedPage, alGetD_alSet]
    by_cases hk : k = p.title <;> simp [hk, h.2 k]

lemma symm_of_allNil (g : LinkGraph) (h : AllNilGraph g) : SymmGraph g := by
  intro x y
  rw [h.1 y, h.2 x]
  simp

lemma symm_addLinkEntry (title : Str) (g : LinkGraph) (entry : Str × List Str)
    (h : SymmGraph g) : SymmGraph (addLinkEntry title g entry) := by
  intro x y
  show y ∈ alGetD (alSet g.backLinks entry.1
      (insertSet (alGetD g.backLinks entry.1 []) title)) x [] ↔
    x ∈ alGetD (alSet g.forwardLinks title
      (insertSet (alGetD g.forwardLinks title []) entry.1)) y []
  rw [alGetD_alSet, alGetD_alSet]
  by_cases hx : x = entry.1 <;> by_cases hy : y = title
  · rw [if_pos hx, if_pos hy, mem_insertSet, mem_insertSet]
    exact ⟨fun _ => Or.inr hx, fun _ => Or.inr hy⟩
  · rw [if_pos hx, if_neg hy, mem_insertSet]
    subst hx
    constructor
    · rintro (hm | rfl)
      · exact (h _ _).1 hm
      · exact absurd rfl hy
    · intro hm; exact Or.inl ((h _ _).2 hm)
  · rw [if_neg hx, if_pos hy, mem_insertSet]
    subst hy
    constructor
    · intro hm; exact Or.inl ((h _ _).1 hm)
    · rintro (hm | rfl)
      · exact (h _ _).2 hm
      · exact absurd rfl hx
  · rw [if_neg hx, if_neg hy]
    exact h x y

lemma symm_linkPage (g : LinkGraph) (p : CosensePage) (h : SymmGraph g) :
    SymmGraph (linkPage g p) :=
  foldl_inv SymmGraph (addLinkEntry p.title)
    (fun g e hg => symm_addLinkEntry p.title g e hg) (extractLinks p) g h

lemma symm_buildLinkGraph (pages : List CosensePage) :
    SymmGraph (buildLinkGraph pages) := by
  unfold buildLinkGraph
  apply foldl_inv SymmGraph linkPage (fun g p hg => symm_linkPage g p hg)
  exact symm_of_allNil _
    (foldl_inv AllNilGraph seedPage (fun g p hg => allNil_seedPage g p hg)
      pages emptyGraph allNil_emptyGraph)

lemma existingPages_addLinkEntry (t : Str) (g : LinkGraph) (e : Str × List Str) :
    (addLinkEntry t g e).existingPages = g.existingPages := rfl

lemma existingPages_linkPage (g : LinkGraph) (p : CosensePage) :
    (linkPage g p).existingPages = g.existingPages := by
  unfold linkPage
  induction (extractLinks p) generalizing g with
  | nil => rfl
  | cons e t ih => simpa using ih (addLinkEntry p.title g e)

lemma existingPages_linkPass (pages : List CosensePage) :
    ∀ g : LinkGraph, (pages.foldl linkPage g).existingPages = g.existingPages := by
  induction pages with
  | nil => intro g; rfl
  | cons p t ih =>
    intro g
    simpa [existingPages_linkPage] using ih (linkPage g p)

lemma existingPages_seedPass (pages : List CosensePage) :
    ∀ g : LinkGraph, (pages.foldl seedPage g).existingPages =
      (pages.map (fun p => p.title)).foldl insertSet g.existingPages := by
  induction pages with
  | nil => intro g; rfl
  | cons p t ih =>
    intro g
    simpa using ih (seedPage g p)

lemma seedPass_fl_isSome (pages : List CosensePage) :
    ∀ (g : LinkGraph) (k : Str),
      (alGet (pages.foldl seedPage g).forwardLinks k).isSome = true ↔
        k ∈ pages.map (fun p => p.title) ∨ (alGet g.forwardLinks k).isSome = true := by
  induction pages with
  | nil => simp
  | cons p t ih =>
    intro g k
    simp only [List.foldl_cons, List.map_cons, List.mem_cons]
    rw [ih]
    have hs : (alGet (seedPage g p).forwardLinks k).isSome = true ↔
        k = p.title ∨ (alGet g.forwardLinks k).isSome = true :=
      alGet_isSome_alSet g.forwardLinks p.title [] k
    rw [hs]
    tauto

lemma seedPass_bl_isSome (pages : List CosensePage) :
    ∀ (g : LinkGraph) (k : Str),
      (alGet (pages.foldl seedPage g).backLinks k).isSome = true ↔
        k ∈ pages.map (fun p => p.title) ∨ (alGet g.backLinks k).isSome = true := by
  induction pages with
  | nil => simp
  | cons p t ih =>
    intro g k
    simp only [List.foldl_cons, List.map_cons, List.mem_cons]
    rw [ih]
    have hs : (alGet (seedPage g p).backLinks k).isSome = true ↔
        k = p.title ∨ (alGet g.backLinks k).isSome = true :=
      alGet_isSome_alSet g.backLinks p.title [] k
    rw [hs]
    tauto

lemma fl_isSome_addLinkEntry (t : Str) (g : LinkGraph) (e : Str × List Str)
    (k : Str) (h : (alGet g.forwardLinks k).isSome = true) :
    (alGet (addLinkEntry t g e).forwardLinks k).isSome = true := by
  show (alGet (alSet g.forwardLinks t _) k).isSome = true
  rw [alGet_isSome_alSet]
  exact Or.inr h

lemma fl_isSome_linkPass (pages : List CosensePage) (k : Str) :
    ∀ g : LinkGraph, (alGet g.forwardLinks k).isSome = true →
      (alGet ((pages.foldl linkPage g).forwardLinks) k).isSome = true := by
  intro g h
  apply foldl_inv (fun g => (alGet g.forwardLinks k).isSome = true) linkPage
  · intro g' p hg'
    exact foldl_inv _ (addLinkEntry p.title)
      (fun g'' e hg'' => fl_isSome_addLinkEntry p.title g'' e k hg'') _ _ hg'
  · exact h

lemma bl_isSome_entryFold (t : Str) (k : Str) :
    ∀ (l : List (Str × List Str)) (g : LinkGraph),
      (alGet ((l.foldl (addLinkEntry t) g).backLinks) k).isSome = true ↔
        (alGet g.backLinks k).isSome = true ∨ k ∈ l.map Prod.fst := by
  intro l
  induction l with
  | nil => simp
  | cons e tl ih =>
    intro g
    simp only [List.foldl_cons, List.map_cons, List.mem_cons]
    rw [ih]
    have hs : (alGet (addLinkEntry t g e).backLinks k).isSome = true ↔
        k = e.1 ∨ (alGet g.backLinks k).isSome = true :=
      alGet_isSome_alSet g.backLinks e.1 _ k
    rw [hs]
    tauto

lemma bl_isSome_linkPass (k : Str) (pages : List CosensePage) :
    ∀ g : LinkGraph,
      (alGet ((pages.foldl linkPage g).backLinks) k).isSome = true ↔
        (alGet g.backLinks k).isSome = true ∨
          ∃ p ∈ pages, (alGet (extractLinks p) k).isSome = true := by
  induction pages with
  | nil => simp
  | cons p t ih =>
    intro g
    simp only [List.foldl_cons, ih]
    rw [show (alGet ((linkPage g p).backLinks) k).isSome = true ↔ _ from
      bl_isSome_entryFold p.title k (extractLinks p) g]
    rw [← alGet_isSome_iff_mem_keys]
    simp only [List.mem_cons]
    constructor
    · rintro (((h | h) | ⟨q, hq, hh⟩))
      · exact Or.inl h
      · exact Or.inr ⟨p, Or.inl rfl, h⟩
      · exact Or.inr ⟨q, Or.inr hq, hh⟩
    · rintro (h | ⟨q, (rfl | hq), hh⟩)
      · exact Or.inl (Or.inl h)
      · exact Or.inl (Or.inr hh)
      · exact Or.inr ⟨q, hq, hh⟩

/-! ## Two-hop query lemmas -/

lemma mem_addTwoHopCandidates (excl : List Str) (x : Str) :
    ∀ (cands acc : List Str),
      x ∈ addTwoHopCandidates excl acc cands ↔
        x ∈ acc ∨ (x ∈ cands ∧ x ∉ excl) := by
  intro cands
  induction cands with
  | nil => intro acc; simp [addTwoHopCandidates]
  | cons c t ih =>
    intro acc
    show x ∈ addTwoHopCandidates excl
        (if c ∈ excl then acc else insertSet acc c) t ↔ _
    rw [ih]
    by_cases hc : c ∈ excl
    · rw [if_pos hc]
      simp only [List.mem_cons]
      constructor
      · rintro (hx | hx)
        · exact Or.inl hx
        · exact Or.inr ⟨Or.inr hx.1, hx.2⟩
      · rintro (hx | ⟨(rfl | hx), hne⟩)
        · exact Or.inl hx
        · exact absurd hc hne
        · exact Or.inr ⟨hx, hne⟩
    · rw [if_neg hc]
      simp only [mem_insertSet, List.mem_cons]
      constructor
      · rintro ((hx | rfl) | hx)
        · exact Or.inl hx
        · exact Or.inr ⟨Or.inl rfl, hc⟩
        · exact Or.inr ⟨Or.inr hx.1, hx.2⟩
      · rintro (hx | ⟨(rfl | hx), hne⟩)
        · exact Or.inl (Or.inl hx)
        · exact Or.inl (Or.inr rfl)
        · exact Or.inr ⟨hx, hne⟩

lemma mem_twoHopStep (g : LinkGraph) (excl acc : List Str) (p x : Str) :
    x ∈ twoHopStep g excl acc p ↔
      x ∈ acc ∨
        ((x ∈ alGetD g.forwardLinks p [] ∨ x ∈ alGetD g.backLinks p []) ∧
          x ∉ excl) := by
  unfold twoHopStep
  rw [mem_addTwoHopCandidates, mem_addTwoHopCandidates]
  tauto

lemma mem_twoHopFold (g : LinkGraph) (excl : List Str) (x : Str) :
    ∀ (l acc : List Str),
      x ∈ l.foldl (twoHopStep g excl) acc ↔
        x ∈ acc ∨
          ∃ p ∈ l,
            (x ∈ alGetD g.forwardLinks p [] ∨ x ∈ alGetD g.backLinks p []) ∧
              x ∉ excl := by
  intro l
  induction l with
  | nil => simp
  | cons p t ih =>
    intro acc
    simp only [List.foldl_cons, List.mem_cons]
    rw [ih, mem_twoHopStep]
    constructor
    · rintro ((hx | hx) | ⟨q, hq, hh⟩)
      · exact Or.inl hx
      · exact Or.inr ⟨p, Or.inl rfl, hx⟩
      · exact Or.inr ⟨q, Or.inr hq, hh⟩
    · rintro (hx | ⟨q, (rfl | hq), hh⟩)
      · exact Or.inl (Or.inl hx)
      · exact Or.inl (Or.inr hh)
      · exact Or.inr ⟨q, hq, hh⟩

lemma nodup_addTwoHopCandidates (excl : List Str) (cands : List Str) :
    ∀ acc : List Str, acc.Nodup → (addTwoHopCandidates excl acc cands).Nodup := by
  intro acc h
  exact foldl_inv List.Nodup _
    (fun a y ha => by
      by_cases hy : y ∈ excl
      · simpa [if_pos hy]
      · simpa [if_neg hy] using nodup_insertSet ha)
    cands acc h

lemma nodup_twoHopFold (g : LinkGraph) (excl : List Str) (l acc : List Str)
    (h : acc.Nodup) : (l.foldl (twoHopStep g excl) acc).Nodup := by
  exact foldl_inv List.Nodup _
    (fun a p ha =>
      nodup_addTwoHopCandidates excl _ _
        (nodup_addTwoHopCandidates excl _ _ ha))
    l acc h

/-- Full membership characterization of get2HopLinks. -/
lemma mem_get2HopLinks (g : LinkGraph) (t x : Str) :
    x ∈ get2HopLinks g t ↔
      (∃ p, (p ∈ alGetD g.forwardLinks t [] ∨ p ∈ alGetD g.backLinks t []) ∧
        (x ∈ alGetD g.forwardLinks p [] ∨ x ∈ alGetD g.backLinks p [])) ∧
      x ∉ alGetD g.forwardLinks t [] ∧ x ∉ alGetD g.backLinks t [] ∧ x ≠ t := by
  unfold get2HopLinks get1HopLinks
  rw [mem_twoHopFold, mem_twoHopFold]
  have hexcl : ∀ y : Str,
      y ∈ setOf (alGetD g.forwardLinks t [] ++ alGetD g.backLinks t [] ++ [t]) ↔
        y ∈ alGetD g.forwardLinks t [] ∨ y ∈ alGetD g.backLinks t [] ∨ y = t := by
    intro y
    rw [mem_setOf]
    simp [List.mem_append]
  constructor
  · intro hmem
    rcases hmem with (hnil | ⟨p, hp, hn, hne⟩) | ⟨p, hp, hn, hne⟩
    · exact absurd hnil (List.not_mem_nil x)
    · rw [hexcl] at hne
      push_neg at hne
      exact ⟨⟨p, Or.inl hp, hn⟩, hne.1, hne.2.1, hne.2.2⟩
    · rw [hexcl] at hne
      push_neg at hne
      exact ⟨⟨p, Or.inr hp, hn⟩, hne.1, hne.2.1, hne.2.2⟩
  · rintro ⟨⟨p, hp, hn⟩, h1, h2, h3⟩
    have hne : x ∉ setOf (alGetD g.forwardLinks t [] ++ alGetD g.backLinks t [] ++ [t]) := by
      rw [hexcl]
      push_neg
      exact ⟨h1, h2, h3⟩
    rcases hp with hp | hp
    · exact Or.inl (Or.inr ⟨p, hp, hn, hne⟩)
    · exact Or.inr ⟨p, hp, hn, hne⟩

lemma nodup_get2HopLinks (g : LinkGraph) (t : Str) :
    (get2HopLinks g t).Nodup := by
  unfold get2HopLinks
  exact nodup_twoHopFold _ _ _ _ (nodup_twoHopFold _ _ _ _ List.nodup_nil)

/-! ## Link extraction lemmas -/

lemma mem_nodeFold (orig k : Str) :
    ∀ (nodes : List ParsedNode) (links : AList (List Str)),
      (alGet (nodes.foldl (addNodeLink orig) links) k).isSome = true ↔
        (alGet links k).isSome = true ∨
          ∃ n ∈ nodes, topLinkTarget n = some k ∧ k ≠ [] := by
  intro nodes
  induction nodes with
  | nil => simp
  | cons n t ih =>
    intro links
    simp only [List.foldl_cons, List.mem_cons]
    rw [ih]
    have hstep : (alGet (addNodeLink orig links n) k).isSome = true ↔
        (alGet links k).isSome = true ∨ (topLinkTarget n = some k ∧ k ≠ []) := by
      cases htn : topLinkTarget n with
      | none => simp [addNodeLink, htn]
      | some target =>
        simp only [addNodeLink, htn]
        by_cases hne : target ≠ []
        · rw [if_pos hne]
          rw [alGet_isSome_alSet]
          constructor
          · rintro (rfl | h)
            · exact Or.inr ⟨rfl, hne⟩
            · exact Or.inl h
          · rintro (h | ⟨ht, hk⟩)
            · exact Or.inr h
            · cases ht; exact Or.inl rfl
        · rw [if_neg hne]
          push_neg at hne
          subst hne
          constructor
          · exact Or.inl
          · rintro (h | ⟨ht, hk⟩)
            · exact h
            · cases ht; exact absurd rfl hk
    rw [hstep]
    constructor
    · rintro (( h | h) | ⟨q, hq, hh⟩)
      · exact Or.inl h
      · exact Or.inr ⟨n, Or.inl rfl, h⟩
      · exact Or.inr ⟨q, Or.inr hq, hh⟩
    · rintro (h | ⟨q, (rfl | hq), hh⟩)
      · exact Or.inl (Or.inl h)
      · exact Or.inl (Or.inr hh)
      · exact Or.inr ⟨q, hq, hh⟩

lemma mem_lineFold (k : Str) :
    ∀ (prs : List (ParsedLine × Str)) (links : AList (List Str)),
      (alGet (prs.foldl addLineLinks links) k).isSome = true ↔
        (alGet links k).isSome = true ∨
          ∃ pr ∈ prs, ∃ n ∈ pr.1.nodes, topLinkTarget n = some k ∧ k ≠ [] := by
  intro prs
  induction prs with
  | nil => simp
  | cons pr t ih =>
    intro links
    simp only [List.foldl_cons, List.mem_cons]
    rw [ih]
    rw [show addLineLinks links pr = pr.1.nodes.foldl (addNodeLink pr.2) links from rfl]
    rw [mem_nodeFold]
    constructor
    · rintro ((h | h) | ⟨q, hq, hh⟩)
      · exact Or.inl h
      · exact Or.inr ⟨pr, Or.inl rfl, h⟩
      · exact Or.inr ⟨q, Or.inr hq, hh⟩
    · rintro (h | ⟨q, (rfl | hq), hh⟩)
      · exact Or.inl (Or.inl h)
      · exact Or.inl (Or.inr hh)
      · exact Or.inr ⟨q, hq, hh⟩

/-- Key characterization of extractLinks: a target is recorded exactly
when some top-level node of some parsed line carries it. -/
lemma extractLinks_isSome (page : CosensePage) (k : Str) :
    (alGet (extractLinks page) k).isSome = true ↔
      ∃ pr ∈ (parseLines (page.lines.map getLineText)).zip
          (page.lines.map getLineText),
        ∃ n ∈ pr.1.nodes, topLinkTarget n = some k ∧ k ≠ [] := by
  unfold extractLinks
  rw [mem_lineFold]
  simp [alGet]

/-! ## Matcher decomposition lemmas -/

lemma matchDoubleBracket_eq {cs i r : Str}
    (h : matchDoubleBracket cs = some (i, r)) :
    cs = '[' :: '[' :: (i ++ ']' :: ']' :: r) ∧ i ≠ [] := by
  unfold matchDoubleBracket at h
  split at h
  next t =>
    split at h
    next hcond =>
      injection h with h1
      cases h1
      obtain ⟨hrun, htake⟩ := hcond
      refine ⟨?_, hrun⟩
      have hd : t.drop (t.takeWhile (fun c => c ≠ ']')).length =
          ']' :: ']' ::
            t.drop ((t.takeWhile (fun c => c ≠ ']')).length + 2) := by
        conv_lhs =>
          rw [← List.drop_take_append_drop t
            (t.takeWhile (fun c => c ≠ ']')).length 2]
        rw [htake]
        rfl
      have ht2 : t = t.takeWhile (fun c => c ≠ ']') ++
          (']' :: ']' ::
            t.drop ((t.takeWhile (fun c => c ≠ ']')).length + 2)) := by
        conv_lhs => rw [takeWhile_decomp (fun c => c ≠ ']') t, hd]
      conv_lhs => rw [ht2]
    next => exact Option.noConfusion h
  next => exact Option.noConfusion h

lemma matchSingleBracket_eq {cs i r : Str}
    (h : matchSingleBracket cs = some (i, r)) :
    cs = '[' :: (i ++ ']' :: r) ∧ i ≠ [] := by
  unfold matchSingleBracket at h
  split at h
  next t =>
    split at h
    next hcond =>
      injection h with h1
      cases h1
      obtain ⟨hrun, htake⟩ := hcond
      refine ⟨?_, hrun⟩
      have hd : t.drop (t.takeWhile (fun c => c ≠ ']')).length =
          ']' :: t.drop ((t.takeWhile (fun c => c ≠ ']')).length + 1) := by
        conv_lhs =>
          rw [← List.drop_take_append_drop t
            (t.takeWhile (fun c => c ≠ ']')).length 1]
        rw [htake]
        rfl
      have ht2 : t = t.takeWhile (fun c => c ≠ ']') ++
          (']' :: t.drop ((t.takeWhile (fun c => c ≠ ']')).length + 1)) := by
        conv_lhs => rw [takeWhile_decomp (fun c => c ≠ ']') t, hd]
      conv_lhs => rw [ht2]
    next => exact Option.noConfusion h
  next => exact Option.noConfusion h

lemma matchInlineCode_eq {cs i r : Str}
    (h : matchInlineCode cs = some (i, r)) :
    cs = backquote :: (i ++ backquote :: r) ∧ i ≠ [] := by
  unfold matchInlineCode at h
  split at h
  next c t =>
    split at h
    next hc =>
      split at h
      next hcond =>
        injection h with h1
        cases h1
        obtain ⟨hrun, htake⟩ := hcond
        subst hc
        refine ⟨?_, hrun⟩
        have hd : t.drop (t.takeWhile (fun d => d ≠ backquote)).length =
            backquote ::
              t.drop ((t.takeWhile (fun d => d ≠ backquote)).length + 1) := by
          conv_lhs =>
            rw [← List.drop_take_append_drop t
              (t.takeWhile (fun d => d ≠ backquote)).length 1]
          rw [htake]
          rfl
        have ht2 : t = t.takeWhile (fun d => d ≠ backquote) ++
            (backquote ::
              t.drop ((t.takeWhile (fun d => d ≠ backquote)).length + 1)) := by
          conv_lhs => rw [takeWhile_decomp (fun d => d ≠ backquote) t, hd]
        conv_lhs => rw [ht2]
      next => exact Option.noConfusion h
    next => exact Option.noConfusion h
  next => exact Option.noConfusion h

lemma matchHashtag_eq {cs i r : Str}
    (h : matchHashtag cs = some (i, r)) :
    cs = '#' :: (i ++ r) ∧ i ≠ [] := by
  unfold matchHashtag at h
  split at h
  next t =>
    split at h
    next hrun =>
      injection h with h1
      cases h1
      refine ⟨?_, hrun⟩
      conv_lhs => rw [takeWhile_decomp isTagChar t]
    next => exact Option.noConfusion h
  next => exact Option.noConfusion h

/-! ## Raw-span accounting lemmas -/

lemma joinRaws_append (a b : List ParsedNode) :
    joinRaws (a ++ b) = joinRaws a ++ joinRaws b := by
  simp [joinRaws]

lemma joinRaws_flushBuf (buf : Str) (acc : List ParsedNode) :
    joinRaws (flushBuf buf acc) = joinRaws acc ++ buf := by
  unfold flushBuf
  by_cases h : buf = []
  · simp [h]
  · rw [if_neg h, joinRaws_append]
    simp [joinRaws, ParsedNode.rawOf]

lemma joinRaws_hashtagFlush (buf : Str) (acc : List ParsedNode) :
    joinRaws (hashtagFlush buf acc) = joinRaws acc ++ buf := by
  induction buf using List.reverseRecOn with
  | nil => simp [hashtagFlush, joinRaws_flushBuf]
  | append_singleton ys y _ =>
    rw [show hashtagFlush (ys ++ [y]) acc =
        (if y = ' ' ∨ y = '\t' then
          flushBuf [y] (flushBuf (ys ++ [y]).dropLast acc)
        else flushBuf (ys ++ [y]) acc) from by
      unfold hashtagFlush
      rw [List.getLast?_concat]]
    by_cases hy : y = ' ' ∨ y = '\t'
    · rw [if_pos hy, joinRaws_flushBuf, joinRaws_flushBuf, List.dropLast_concat]
      simp
    · rw [if_neg hy, joinRaws_flushBuf]

lemma joinRaws_singleton (n : ParsedNode) : joinRaws [n] = n.rawOf := by
  simp [joinRaws]

lemma parseBracket_raw (rec : Str → List ParsedNode) (content : Str) :
    (parseBracket rec content).rawOf = brRaw content := by
  unfold parseBracket
  repeat' split
  all_goals first
  | rfl
  | (dsimp only
     repeat' split
     all_goals rfl)

/-- Raw-span accounting for the inline scanning loop: the concatenated
raw spans of the produced nodes are exactly the already-accumulated raw
spans, the pending buffer, and the remaining input. -/
lemma parseInlineContent_join :
    ∀ (fuel : Nat) (cs : Str) (acc : List ParsedNode) (buf : Str),
      joinRaws (parseInlineContent fuel cs acc buf) =
        joinRaws acc ++ buf ++ cs := by
  intro fuel
  induction fuel with
  | zero =>
    intro cs acc buf
    by_cases h : cs = []
    · subst h
      rw [show parseInlineContent 0 [] acc buf = flushBuf buf acc from by
        simp [parseInlineContent]]
      rw [joinRaws_flushBuf]
      simp
    · rw [show parseInlineContent 0 cs acc buf =
          flushBuf buf acc ++ [.text cs cs] from by
        simp [parseInlineContent, h]]
      rw [joinRaws_append, joinRaws_flushBuf, joinRaws_singleton]
      simp [ParsedNode.rawOf]
  | succ f ih =>
    intro cs acc buf
    cases cs with
    | nil =>
      rw [show parseInlineContent (f + 1) [] acc buf = flushBuf buf acc from rfl]
      rw [joinRaws_flushBuf]
      simp
    | cons c t =>
      simp only [parseInlineContent]
      rcases hdb : matchDoubleBracket (c :: t) with _ | ⟨i, r⟩
      · simp only [hdb]
        rcases hsb : matchSingleBracket (c :: t) with _ | ⟨i, r⟩
        · simp only [hsb]
          rcases hic : matchInlineCode (c :: t) with _ | ⟨i, r⟩
          · simp only [hic]
            by_cases hc : c = '#' ∧ isValidPosition acc buf = true
            · rw [if_pos hc]
              rcases hht : matchHashtag (c :: t) with _ | ⟨tag, r⟩
              · simp only [hht]
                rw [ih]
                simp
              · simp only [hht]
                rw [ih, joinRaws_append, joinRaws_hashtagFlush,
                  joinRaws_singleton]
                rw [(matchHashtag_eq hht).1]
                simp [ParsedNode.rawOf]
            · rw [if_neg hc]
              rw [ih]
              simp
          · simp only [hic]
            rw [ih, joinRaws_append, joinRaws_flushBuf, joinRaws_singleton]
            rw [(matchInlineCode_eq hic).1]
            simp [ParsedNode.rawOf]
        · simp only [hsb]
          rw [ih, joinRaws_append, joinRaws_flushBuf, joinRaws_singleton]
          rw [parseBracket_raw, (matchSingleBracket_eq hsb).1]
          simp [brRaw]
      · simp only [hdb]
        rw [ih, joinRaws_append, joinRaws_flushBuf, joinRaws_singleton]
        rw [(matchDoubleBracket_eq hdb).1]
        simp [ParsedNode.rawOf]

/-! ## Termination (fuel adequacy) lemmas -/

lemma matchDoubleBracket_len {cs i r : Str}
    (h : matchDoubleBracket cs = some (i, r)) :
    i.length + r.length + 4 = cs.length ∧ 1 ≤ i.length := by
  obtain ⟨hcs, hne⟩ := matchDoubleBracket_eq h
  have hl := congrArg List.length hcs
  simp only [List.length_cons, List.length_append] at hl
  exact ⟨by omega, List.length_pos.2 hne⟩

lemma matchSingleBracket_len {cs i r : Str}
    (h : matchSingleBracket cs = some (i, r)) :
    i.length + r.length + 2 = cs.length ∧ 1 ≤ i.length := by
  obtain ⟨hcs, hne⟩ := matchSingleBracket_eq h
  have hl := congrArg List.length hcs
  simp only [List.length_cons, List.length_append] at hl
  exact ⟨by omega, List.length_pos.2 hne⟩

lemma matchInlineCode_len {cs i r : Str}
    (h : matchInlineCode cs = some (i, r)) :
    i.length + r.length + 2 = cs.length ∧ 1 ≤ i.length := by
  obtain ⟨hcs, hne⟩ := matchInlineCode_eq h
  have hl := congrArg List.length hcs
  simp only [List.length_cons, List.length_append] at hl
  exact ⟨by omega, List.length_pos.2 hne⟩

lemma matchHashtag_len {cs i r : Str}
    (h : matchHashtag cs = some (i, r)) :
    i.length + r.length + 1 = cs.length ∧ 1 ≤ i.length := by
  obtain ⟨hcs, hne⟩ := matchHashtag_eq h
  have hl := congrArg List.length hcs
  simp only [List.length_cons, List.length_append] at hl
  exact ⟨by omega, List.length_pos.2 hne⟩

lemma wsThenRest_length {t r : Str} (h : wsThenRest t = some r) :
    r.length ≤ t.length := by
  simp only [wsThenRest] at h
  split at h
  · exact Option.noConfusion h
  · split at h
    · split at h
      · injection h with h1
        subst h1
        simp [List.length_drop]
      · exact Option.noConfusion h
    · split at h
      next c heq =>
        split at h
        · injection h with h1
          subst h1
          have : t ≠ [] := by
            intro hnil
            rw [hnil] at heq
            exact Option.noConfusion heq
          have := List.length_pos.2 this
          simpa using this
        · exact Option.noConfusion h
      next => exact Option.noConfusion h

lemma boldSplit_length {content : Str} {lvl : Nat} {rest : Str}
    (h : boldSplit content = some (lvl, rest)) :
    rest.length ≤ content.length := by
  simp only [boldSplit] at h
  split at h
  · exact Option.noConfusion h
  · split at h
    next r' heq =>
      injection h with h1
      have h2 : r' = rest := congrArg Prod.snd h1
      subst h2
      calc r'.length
          ≤ (content.drop
              (content.takeWhile (fun c => c = '*')).length).length :=
            wsThenRest_length heq
        _ ≤ content.length := by simp [List.length_drop]
    next => exact Option.noConfusion h

lemma decoSplit_length {marker : Char} {content r : Str}
    (h : decoSplit marker content = some r) :
    r.length ≤ content.length := by
  unfold decoSplit at h
  split at h
  next c t =>
    split at h
    · calc r.length ≤ t.length := wsThenRest_length h
        _ ≤ (c :: t).length := by simp
    · exact Option.noConfusion h
  next => exact Option.noConfusion h

lemma parseBracket_congr (r1 r2 : Str → List ParsedNode) (content : Str)
    (h : ∀ sub : Str, sub.length ≤ content.length → r1 sub = r2 sub) :
    parseBracket r1 content = parseBracket r2 content := by
  unfold parseBracket
  rcases hep : extProjMatch content with _ | pr
  · simp only [hep]
    rcases hicn : iconMatch content with _ | user
    · simp only [hicn]
      by_cases hm : content.take 2 = ['$', ' ']
      · rw [if_pos hm, if_pos hm]
      · rw [if_neg hm, if_neg hm]
        rcases hbs : boldSplit content with _ | ⟨lvl, bc⟩
        · simp only [hbs]
          rcases hit : decoSplit '/' content with _ | r
          · simp only [hit]
            rcases hst : decoSplit '-' content with _ | r
            · simp only [hst]
              rcases hun : decoSplit '_' content with _ | r
              · simp only [hun]
              · simp only [hun]
                rw [h r (decoSplit_length hun)]
            · simp only [hst]
              rw [h r (decoSplit_length hst)]
          · simp only [hit]
            rw [h r (decoSplit_length hit)]
        · simp only [hbs]
          by_cases himg : (gyazoTest bc || imageExtTest bc ||
              localImagePathTest bc) = true
          · rw [if_pos himg, if_pos himg]
          · rw [if_neg himg, if_neg himg, h bc (boldSplit_length hbs)]
    · simp only [hicn]
  · simp only [hep]

/-- Fuel adequacy: any two fuel values exceeding the input length give
the same parse; equivalently, the scanning loop needs at most one
iteration per input character, because every iteration consumes at
least one character and every recursive call receives a strictly
shorter string. -/
lemma parseInlineContent_fuel :
    ∀ (f g : Nat) (cs : Str) (acc : List ParsedNode) (buf : Str),
      cs.length < f → cs.length < g →
      parseInlineContent f cs acc buf = parseInlineContent g cs acc buf := by
  intro f
  induction f with
  | zero => intro g cs acc buf hf _; exact absurd hf (Nat.not_lt_zero _)
  | succ f ih =>
    intro g cs acc buf hf hg
    cases g with
    | zero => exact absurd hg (Nat.not_lt_zero _)
    | succ g' =>
    cases cs with
    | nil => rfl
    | cons c t =>
    simp only [List.length_cons] at hf hg
    simp only [parseInlineContent]
    rcases hdb : matchDoubleBracket (c :: t) with _ | ⟨i, r⟩
    · simp only [hdb]
      rcases hsb : matchSingleBracket (c :: t) with _ | ⟨i, r⟩
      · simp only [hsb]
        rcases hic : matchInlineCode (c :: t) with _ | ⟨i, r⟩
        · simp only [hic]
          by_cases hc : c = '#' ∧ isValidPosition acc buf = true
          · rw [if_pos hc, if_pos hc]
            rcases hht : matchHashtag (c :: t) with _ | ⟨tag, r⟩
            · simp only [hht]
              exact ih g' t acc (buf ++ [c]) (by omega) (by omega)
            · simp only [hht]
              obtain ⟨hl, hp⟩ := matchHashtag_len hht
              simp only [List.length_cons] at hl
              exact ih g' r _ [] (by omega) (by omega)
          · rw [if_neg hc, if_neg hc]
            exact ih g' t acc (buf ++ [c]) (by omega) (by omega)
        · simp only [hic]
          obtain ⟨hl, hp⟩ := matchInlineCode_len hic
          simp only [List.length_cons] at hl
          exact ih g' r _ [] (by omega) (by omega)
      · simp only [hsb]
        obtain ⟨hl, hp⟩ := matchSingleBracket_len hsb
        simp only [List.length_cons] at hl
        have hpb : parseBracket (fun sub => parseInlineContent f sub [] []) i =
            parseBracket (fun sub => parseInlineContent g' sub [] []) i :=
          parseBracket_congr _ _ i
            (fun sub hsub => ih g' sub [] [] (by omega) (by omega))
        rw [hpb]
        exact ih g' r _ [] (by omega) (by omega)
    · simp only [hdb]
      obtain ⟨hl, hp⟩ := matchDoubleBracket_len hdb
      simp only [List.length_cons] at hl
      have hch : parseInlineContent f i [] [] = parseInlineContent g' i [] [] :=
        ih g' i [] [] (by omega) (by omega)
      rw [hch]
      exact ih g' r _ [] (by omega) (by omega)

/-! ## Line-level lemmas -/

lemma measureIndent_content_length (line : Str) :
    (measureIndent line).2.length ≤ line.length := by
  simp [measureIndent, List.length_drop]

lemma parseQuote_content_length (c : Str) :
    (parseQuote c).2.length ≤ c.length := by
  unfold parseQuote
  split
  next t =>
    split
    · simp
    · split
      next r =>
        simp only [List.length_cons]
        omega
      next => simp
  next => simp

/-- parseLineFuel at any sufficient fuel agrees with parseLine. -/
lemma parseLineFuel_eq (f : Nat) (line : Str) (b : Bool)
    (hf : line.length < f) : parseLineFuel f line b = parseLine line b := by
  unfold parseLine
  unfold parseLineFuel
  have hm : (measureIndent line).2.length < f := by
    have := measureIndent_content_length line
    omega
  have hm' : (measureIndent line).2.length < line.length + 1 := by
    have := measureIndent_content_length line
    omega
  have hq : (parseQuote (measureIndent line).2).2.length < f := by
    have := parseQuote_content_length (measureIndent line).2
    omega
  have hq' : (parseQuote (measureIndent line).2).2.length < line.length + 1 := by
    have := parseQuote_content_length (measureIndent line).2
    omega
  by_cases h1 : b = true ∧ 0 < (measureIndent line).1
  · rw [if_pos h1, if_pos h1]
  · rw [if_neg h1, if_neg h1]
    by_cases h2 : (isCodeBlockStart (measureIndent line).2).1 = true
    · rw [if_pos h2, if_pos h2]
    · rw [if_neg h2, if_neg h2]
      by_cases h3 : (parseQuote (measureIndent line).2).1 = true
      · rw [if_pos h3, if_pos h3]
        by_cases h4 : (parseQuote (measureIndent line).2).2 ≠ []
        · rw [if_pos h4, if_pos h4]
          rw [parseInlineContent_fuel f (line.length + 1) _ [] [] hq hq']
        · rw [if_neg h4, if_neg h4]
      · rw [if_neg h3, if_neg h3]
        rw [parseInlineContent_fuel f (line.length + 1) _ [] [] hm hm']

/-- Raw-span accounting at the line level: the node raw spans of a
parsed line concatenate to the post-indent content, with the quote
marker (and one optional following space) additionally removed on quote
lines. -/
lemma parseLine_join (line : Str) (b : Bool) :
    joinRaws (parseLine line b).nodes =
      (if (parseLine line b).isQuote then (parseQuote (measureIndent line).2).2
       else (measureIndent line).2) := by
  simp only [parseLine, parseLineFuel]
  by_cases h1 : b = true ∧ 0 < (measureIndent line).1
  · rw [if_pos h1]
    simp [joinRaws, ParsedNode.rawOf]
  · rw [if_neg h1]
    by_cases h2 : (isCodeBlockStart (measureIndent line).2).1 = true
    · rw [if_pos h2]
      simp [joinRaws, ParsedNode.rawOf]
    · rw [if_neg h2]
      by_cases h3 : (parseQuote (measureIndent line).2).1 = true
      · rw [if_pos h3]
        by_cases h4 : (parseQuote (measureIndent line).2).2 ≠ []
        · rw [if_pos h4]
          simp only [parseInlineContent_join]
          simp [joinRaws]
        · rw [if_neg h4]
          push_neg at h4
          simp [joinRaws, h4]
      · rw [if_neg h3]
        simp only [parseInlineContent_join]
        simp [joinRaws]

/-! ## Blank-line lemmas -/

lemma all_ws_content {line : Str} (h : line.all isJsSpace = true) :
    (measureIndent line).2.all isJsSpace = true := by
  unfold measureIndent
  exact List.all_eq_true.2
    (fun c hc => List.all_eq_true.1 h c (List.mem_of_mem_drop hc))

lemma isCodeBlockStart_blank {content : Str}
    (h : content.all isJsSpace = true) : (isCodeBlockStart content).1 = false := by
  unfold isCodeBlockStart
  by_cases hc : content.take 5 = ("code:".toList) ∧ content.drop 5 ≠ [] ∧
      (content.drop 5).all (fun c => ¬ isJsSpace c)
  · exfalso
    obtain ⟨h5, _, _⟩ := hc
    cases content with
    | nil => exact List.noConfusion h5
    | cons a t =>
      have ha : a = 'c' := by
        have := congrArg List.head? h5
        simpa using this
      subst ha
      have := List.all_eq_true.1 h 'c' (List.mem_cons_self _ _)
      exact absurd this (by decide)
  · rw [if_neg hc]

lemma parseLine_isCodeBlock_blank {line : Str} (b : Bool)
    (h : line.all isJsSpace = true) : (parseLine line b).isCodeBlock = false := by
  simp only [parseLine, parseLineFuel]
  by_cases h1 : b = true ∧ 0 < (measureIndent line).1
  · rw [if_pos h1]
  · rw [if_neg h1]
    have h2 : ¬ (isCodeBlockStart (measureIndent line).2).1 = true := by
      rw [isCodeBlockStart_blank (all_ws_content h)]
      simp
    rw [if_neg h2]
    by_cases h3 : (parseQuote (measureIndent line).2).1 = true
    · rw [if_pos h3]
    · rw [if_neg h3]

/-- A blank line (one that is entirely JavaScript whitespace) never
changes the code-block state of the line classifier: the close test
requires a non-blank line and a blank line can never be a block start. -/
lemma parseLinesStep_blank (st : Bool × Nat × List ParsedLine) (line : Str)
    (h : line.all isJsSpace = true) :
    (parseLinesStep st line).1 = st.1 ∧ (parseLinesStep st line).2.1 = st.2.1 := by
  simp only [parseLinesStep]
  have hclose : ¬ (st.1 = true ∧ (measureIndent line).1 ≤ st.2.1 ∧
      ¬ line.all isJsSpace = true) := by
    rintro ⟨-, -, hncl⟩
    exact hncl h
  rw [if_neg hclose]
  have hcb := parseLine_isCodeBlock_blank st.1 h
  rw [hcb]
  simp

/-! ## Bracket-dispatch lemmas for the bold-image override -/

lemma boldSplit_head {content : Str} {lvl : Nat} {rest : Str}
    (h : boldSplit content = some (lvl, rest)) : content.head? = some '*' := by
  simp only [boldSplit] at h
  split at h
  · exact Option.noConfusion h
  · next hne =>
    cases content with
    | nil => simp at hne
    | cons a t =>
      by_cases ha : a = '*'
      · simp [ha]
      · rw [show (a :: t).takeWhile (fun c => c = '*') = [] from by
          simp [List.takeWhile_cons, ha]] at hne
        exact absurd rfl hne

lemma wsThenRest_has_ws {t r : Str} (h : wsThenRest t = some r) :
    ∃ c ∈ t, isJsSpace c = true := by
  simp only [wsThenRest] at h
  split at h
  · exact Option.noConfusion h
  · next hw =>
    cases t with
    | nil => simp at hw
    | cons a s =>
      by_cases ha : isJsSpace a = true
      · exact ⟨a, List.mem_cons_self _ _, ha⟩
      · rw [show (a :: s).takeWhile isJsSpace = [] from by
          simp [List.takeWhile_cons, ha]] at hw
        simp at hw

lemma boldSplit_has_ws {content : Str} {lvl : Nat} {rest : Str}
    (h : boldSplit content = some (lvl, rest)) :
    ∃ c ∈ content, isJsSpace c = true := by
  simp only [boldSplit] at h
  split at h
  · exact Option.noConfusion h
  · split at h
    next r' heq =>
      obtain ⟨c, hc, hcs⟩ := wsThenRest_has_ws heq
      exact ⟨c, List.mem_of_mem_drop hc, hcs⟩
    next => exact Option.noConfusion h

lemma iconMatch_no_ws {content : Str}
    (h : ∃ c ∈ content, isJsSpace c = true) : iconMatch content = none := by
  simp only [iconMatch]
  by_cases hc : content.drop (content.length - 5) = (".icon".toList) ∧
      content.take (content.length - 5) ≠ [] ∧
      (content.take (content.length - 5)).all
        (fun c => ¬ isJsSpace c ∧ c ≠ '.')
  · exfalso
    obtain ⟨c, hmem, hcs⟩ := h
    obtain ⟨hdrop, _, hall⟩ := hc
    rw [← List.take_append_drop (content.length - 5) content] at hmem
    rcases List.mem_append.1 hmem with hmem | hmem
    · have := (List.all_eq_true.1 hall c hmem)
      simp only [decide_eq_true_eq] at this
      exact this.1 hcs
    · rw [hdrop] at hmem
      have hc5 : c = '.' ∨ c = 'i' ∨ c = 'c' ∨ c = 'o' ∨ c = 'n' := by
        simpa using hmem
      rcases hc5 with rfl | rfl | rfl | rfl | rfl <;>
        exact absurd hcs (by decide)
  · rw [if_neg hc]

/-- The source's hashtag position check coincides with the boundary
rule as the amended specification words it. -/
lemma isValidPosition_eq_spec (nodes : List ParsedNode) (buf : Str) :
    isValidPosition nodes buf = specHashtagBoundary nodes buf := by
  induction buf using List.reverseRecOn with
  | nil =>
    cases nodes with
    | nil => rfl
    | cons n t => rfl
  | append_singleton ys y _ =>
    have hie : (ys ++ [y]).isEmpty = false := by cases ys <;> rfl
    cases nodes with
    | nil =>
      rw [Bool.eq_iff_iff]
      simp only [isValidPosition, specHashtagBoundary, List.getLast?_concat,
        hie, Bool.or_eq_true, Bool.and_eq_true, decide_eq_true_eq,
        Option.some.injEq, List.mem_cons, List.not_mem_nil,
        Bool.false_eq_true, and_false, false_and, false_or, or_false]
      tauto
    | cons n t =>
      rw [Bool.eq_iff_iff]
      simp only [isValidPosition, specHashtagBoundary, List.getLast?_concat,
        hie, Bool.or_eq_true, Bool.and_eq_true, decide_eq_true_eq,
        Option.some.injEq, List.mem_cons, List.not_mem_nil,
        Bool.false_eq_true, and_false, false_and, false_or, or_false]
      tauto

/-- The image-in-bold override of parseBracket: a bold match whose
remainder passes the image-likeness test produces an Image node. -/
lemma parseBracket_bold_image (rec : Str → List ParsedNode) {content rest : Str}
    {lvl : Nat} (hb : boldSplit content = some (lvl, rest))
    (himg : (gyazoTest rest || imageExtTest rest ||
      localImagePathTest rest) = true) :
    parseBracket rec content = .image (brRaw content) rest := by
  have hhead := boldSplit_head hb
  have hep : extProjMatch content = none := by
    cases content with
    | nil => rfl
    | cons a t =>
      have ha : a = '*' := by simpa using hhead
      subst ha
      rfl
  have hicn : iconMatch content = none := iconMatch_no_ws (boldSplit_has_ws hb)
  have hmath : ¬ content.take 2 = ['$', ' '] := by
    cases content with
    | nil => simp
    | cons a t =>
      have ha : a = '*' := by simpa using hhead
      subst ha
      intro heq
      have := congrArg List.head? heq
      simp at this
  unfold parseBracket
  simp only [hep, hicn]
  rw [if_neg hmath]
  simp only [hb]
  rw [if_pos himg]

/-! ## Claim theorems -/

/-- C1 (counterexample): the line with a hashtag nested inside a bold
decoration parses to a bold node whose children contain the hashtag
node for "t", yet link extraction over the page records nothing and the
built graph gives the page an empty forward set — a link nested inside
a decoration contributes no edge, contradicting the claim that links
are collected at any depth. -/
theorem C1_nested_link_counterexample :
    (parseLine (strL "[* a #t]") false).nodes =
      [.bold (strL "[* a #t]") 1
        [.text (strL "a") (strL "a"), .text (strL " ") (strL " "),
         .hashtag (strL "#t") (strL "t")]] ∧
    extractLinks nestedTagPage = [] ∧
    alGet (buildLinkGraph [nestedTagPage]).forwardLinks (strL "P") = some [] :=
  ⟨rfl, rfl, rfl⟩

/-- C1 (amended): link extraction walks only the top-level node list of
each parsed line; a target is recorded exactly when some top-level node
of some line is an internal link or hashtag carrying it (and it is
nonempty). Nodes nested inside decoration children are never visited. -/
theorem C1_extraction_top_level_only :
    ∀ (page : CosensePage) (k : Str),
      (alGet (extractLinks page) k).isSome = true ↔
        ∃ pr ∈ (parseLines (page.lines.map getLineText)).zip
            (page.lines.map getLineText),
          ∃ n ∈ pr.1.nodes, topLinkTarget n = some k ∧ k ≠ [] :=
  extractLinks_isSome

/-- C2 (counterexample): for the quote line made of a greater-than sign
and the letter a, the parser emits a single text node for "a"; the
greater-than character appears in no emitted node's raw span (it is
recorded only through the isQuote flag), so not every character of the
input appears in some node's raw span. -/
theorem C2_quote_marker_counterexample :
    (parseLine (strL ">a") false).nodes = [.text (strL "a") (strL "a")] ∧
    (parseLine (strL ">a") false).isQuote = true ∧
    (∀ n ∈ (parseLine (strL ">a") false).nodes, '>' ∉ n.rawOf) ∧
    '>' ∈ strL ">a" :=
  ⟨rfl, rfl, by decide, by decide⟩

/-- C2 (amended): the concatenated raw spans of a parsed line's nodes
equal the line content after removing the indent prefix and, for quote
lines, the quote marker with at most one following space; those removed
characters are accounted for by the indent count and the isQuote flag,
not by any node's raw span. No other character is lost, for every
string and both code-block flags. -/
theorem C2_raw_span_accounting :
    ∀ (s : Str) (b : Bool),
      joinRaws (parseLine s b).nodes =
        (if (parseLine s b).isQuote then (parseQuote (measureIndent s).2).2
         else (measureIndent s).2) :=
  parseLine_join

/-- C3 (counterexample): a half-width closing parenthesis before the
hash is not a recognized boundary (no hashtag is produced), while a
just-closed inline-code node — not a bracket node — does license a
hashtag; both contradict the claimed boundary set. -/
theorem C3_boundary_counterexample :
    (parseLine (strL "a)#b") false).nodes.any isHashtagNode = false ∧
    (parseLine (strL "`c`#t") false).nodes.any isHashtagNode = true :=
  ⟨rfl, rfl⟩

/-- C3 (amended): a hash starts a hashtag exactly at these boundaries:
the very start of the inline text, a pending buffer ending in a space,
a tab, or one of the three full-width closing characters (half-width
closing punctuation is not a boundary), or an empty pending buffer
directly after any just-emitted node (bracket, code or hashtag alike);
in particular "a#b" produces no hashtag and "a #b" produces the hashtag
b. -/
theorem C3_hashtag_boundary :
    (∀ (nodes : List ParsedNode) (buf : Str),
      isValidPosition nodes buf = specHashtagBoundary nodes buf) ∧
    (parseLine (strL "a#b") false).nodes.any isHashtagNode = false ∧
    (parseLine (strL "a #b") false).nodes =
      [.text (strL "a") (strL "a"), .text (strL " ") (strL " "),
       .hashtag (strL "#b") (strL "b")] :=
  ⟨isValidPosition_eq_spec, rfl, rfl⟩

/-- C4: classifying the four-line fixture marks line 0 as the
code-block start, lines 1 and 2 as code-block content (the block stays
open while the indent exceeds the recorded block indent), and line 3 —
whose indent falls back to the block-open indent — as neither. -/
theorem C4_code_block_threading :
    (parseLines [strL "code:a.js", strL " x=1", strL " y=2", strL "z"]).map
        (fun pl => (pl.isCodeBlock, pl.isCodeBlockContent)) =
      [(true, false), (false, true), (false, true), (false, false)] :=
  rfl

/-- C5: membership in the two-hop result is exactly being a forward or
backward neighbor of some one-hop neighbor (in either direction) while
not being the origin, an outgoing neighbor, or an incoming neighbor;
the result is deduplicated; and on the four-page chain A B C D the
two-hop set of A is exactly the page C. -/
theorem C5_two_hop_links :
    (∀ (g : LinkGraph) (t x : Str),
      x ∈ get2HopLinks g t ↔
        (∃ p, (p ∈ alGetD g.forwardLinks t [] ∨ p ∈ alGetD g.backLinks t []) ∧
          (x ∈ alGetD g.forwardLinks p [] ∨ x ∈ alGetD g.backLinks p [])) ∧
        x ∉ alGetD g.forwardLinks t [] ∧ x ∉ alGetD g.backLinks t [] ∧
        x ≠ t) ∧
    (∀ (g : LinkGraph) (t : Str), (get2HopLinks g t).Nodup) ∧
    get2HopLinks (buildLinkGraph chainPages) (strL "A") = [strL "C"] :=
  ⟨mem_get2HopLinks, nodup_get2HopLinks, rfl⟩

/-- C6: backlink symmetry — for every graph built from any page set and
all titles x and y, y is in the back set of x exactly when x is in the
forward set of y (absent entries read as empty sets). -/
theorem C6_backlink_symmetry :
    ∀ (pages : List CosensePage) (x y : Str),
      y ∈ alGetD (buildLinkGraph pages).backLinks x [] ↔
        x ∈ alGetD (buildLinkGraph pages).forwardLinks y [] :=
  fun pages => symm_buildLinkGraph pages

/-- C7: parseLine is total and deterministic — it is a function defined
on every string and flag, and the inline scanning loop, modelled by a
fuel bound on its iteration count, computes the same result under any
fuel exceeding the input length, because each iteration consumes at
least one character and recursive calls receive strictly shorter
strings. -/
theorem C7_parse_line_total :
    ∀ (f : Nat) (s : Str) (b : Bool), s.length < f →
      parseLineFuel f s b = parseLine s b :=
  parseLineFuel_eq

/-- Witness for C7 on a string with an unmatched bracket and a control
character. -/
theorem C7_parse_line_total_witness :
    (strL "[a\x01#").length < 9 ∧
      parseLineFuel 9 (strL "[a\x01#") false = parseLine (strL "[a\x01#") false :=
  ⟨by decide, C7_parse_line_total 9 (strL "[a\x01#") false (by decide)⟩

/-- C8: every seeded page title is in existingPages with forwardLinks
and backLinks entries defined, and a title has a backLinks key exactly
when it is seeded or occurs as an extracted link target of some page
(dangling links are created lazily). -/
theorem C8_graph_seeding :
    ∀ (pages : List CosensePage),
      (∀ p, p ∈ pages.map (fun pg => pg.title) →
        p ∈ (buildLinkGraph pages).existingPages ∧
        (alGet (buildLinkGraph pages).forwardLinks p).isSome = true ∧
        (alGet (buildLinkGraph pages).backLinks p).isSome = true) ∧
      (∀ k, (alGet (buildLinkGraph pages).backLinks k).isSome = true ↔
        k ∈ pages.map (fun pg => pg.title) ∨
          ∃ pg ∈ pages, (alGet (extractLinks pg) k).isSome = true) := by
  intro pages
  constructor
  · intro p hp
    refine ⟨?_, ?_, ?_⟩
    · unfold buildLinkGraph
      rw [existingPages_linkPass, existingPages_seedPass,
        mem_foldl_insertSet]
      exact Or.inr hp
    · unfold buildLinkGraph
      apply fl_isSome_linkPass
      rw [seedPass_fl_isSome]
      exact Or.inl hp
    · unfold buildLinkGraph
      rw [bl_isSome_linkPass]
      left
      rw [seedPass_bl_isSome]
      exact Or.inl hp
  · intro k
    unfold buildLinkGraph
    rw [bl_isSome_linkPass, seedPass_bl_isSome]
    simp only [emptyGraph, alGet, Option.isSome_none, Bool.false_eq_true,
      or_false]

/-- Witness for C8 on the four-page chain fixture. -/
theorem C8_graph_seeding_witness :
    (strL "A") ∈ (buildLinkGraph chainPages).existingPages ∧
    (alGet (buildLinkGraph chainPages).forwardLinks (strL "A")).isSome = true ∧
    (alGet (buildLinkGraph chainPages).backLinks (strL "A")).isSome = true :=
  (C8_graph_seeding chainPages).1 (strL "A") (by decide)

/-- C9: when the single-bracket interior matches the bold pattern and
the remainder passes the image-likeness test (Gyazo host, image file
extension, or the local image path), parseBracket emits an Image node
carrying that remainder instead of a Bold node; in particular the
bracketed bold Gyazo URL parses to a single Image node. -/
theorem C9_bold_image_override :
    (∀ (rec : Str → List ParsedNode) (content rest : Str) (lvl : Nat),
      boldSplit content = some (lvl, rest) →
      (gyazoTest rest || imageExtTest rest || localImagePathTest rest) = true →
      parseBracket rec content = .image (brRaw content) rest) ∧
    (parseLine (strL "[* https://gyazo.com/abc]") false).nodes =
      [.image (strL "[* https://gyazo.com/abc]")
        (strL "https://gyazo.com/abc")] :=
  ⟨fun rec content rest lvl hb himg => parseBracket_bold_image rec hb himg, rfl⟩

/-- Witness for C9 at the Gyazo URL of the specification's example. -/
theorem C9_bold_image_override_witness :
    boldSplit (strL "* https://gyazo.com/abc") =
      some (1, strL "https://gyazo.com/abc") ∧
    parseBracket (fun _ => []) (strL "* https://gyazo.com/abc") =
      .image (brRaw (strL "* https://gyazo.com/abc"))
        (strL "https://gyazo.com/abc") :=
  ⟨by decide,
    C9_bold_image_override.1 (fun _ => []) _ _ 1 (by decide) (by decide)⟩

/-- C10 (counterexample): a whitespace-only blank line inside an open
fenced code region does not close the region, yet — contrary to the
claim — its ParsedLine has the code-block-content flag set and a
nonempty node list (one empty text node), because its indent is
positive and the content short-circuit fires. -/
theorem C10_blank_line_counterexample :
    (strL " ").all isJsSpace = true ∧
    (parseLines [strL "code:a.js", strL " ", strL " x"]).map
        (fun pl => (pl.isCodeBlock, pl.isCodeBlockContent, pl.nodes.length)) =
      [(true, false, 1), (false, true, 1), (false, true, 1)] :=
  ⟨by decide, rfl⟩

/-- C10 (amended): a blank line (entirely whitespace) never changes the
classifier's code-block state — neither closing nor opening a region
nor touching the recorded indent; an entirely empty blank line has both
flags false and an empty node list, while a whitespace-only blank line
with positive indent is classified as code-block content with a single
empty text node. -/
theorem C10_blank_line_in_code_block :
    (∀ (st : Bool × Nat × List ParsedLine) (line : Str),
      line.all isJsSpace = true →
      (parseLinesStep st line).1 = st.1 ∧
        (parseLinesStep st line).2.1 = st.2.1) ∧
    (parseLines [strL "code:a.js", strL "", strL " x"]).map
        (fun pl => (pl.isCodeBlock, pl.isCodeBlockContent, pl.nodes.length)) =
      [(true, false, 1), (false, false, 0), (false, true, 1)] :=
  ⟨parseLinesStep_blank, rfl⟩

/-- Witness for C10 at a whitespace-only line with the region open. -/
theorem C10_blank_line_witness :
    (strL " ").all isJsSpace = true ∧
    (parseLinesStep (true, 0, []) (strL " ")).1 = true ∧
    (parseLinesStep (true, 0, []) (strL " ")).2.1 = 0 :=
  ⟨by decide,
    (C10_blank_line_in_code_block.1 (true, 0, []) (strL " ") (by decide)).1,
    (C10_blank_line_in_code_block.1 (true, 0, []) (strL " ") (by decide)).2⟩

end Cosense
